import Mathlib

/-!
Verification of the inline-markup tokenizer and message assembler of the
group-bot repository (src/message.ts), together with the event model it
populates.  JavaScript runtime semantics are embedded shallowly:

* JS strings are `String` (all operations are re-implemented on `List Char`
  so that every definition reduces in the kernel);
* JS objects are association lists `List (String × String)`; object literals
  with spreads are built with `upsert`, which mirrors JS property assignment
  (existing key keeps its position, new key is appended);
* a thrown exception is modelled as `none`: `Message.parse` returns an
  `Option`, and `none` means the call raised;
* the in-place mutation of the payload (`delete payload.attachments`,
  `delete payload.mentions`) is modelled by returning the updated payload.
-/

namespace GroupBot

/-- One structured message segment: a JS object as an association list. -/
abbrev Seg := List (String × String)

/-- A mention record from `payload.mentions`: a JS object of string fields. -/
abbrev Mention := List (String × String)

/-! ## Character-list string helpers (kernel-reducible replacements for the
JS string operations used by `Message.parse`). -/

/-- `listPre pre l` : `pre` is an initial run of `l` (JS `startsWith` on code
points). -/
def listPre : List Char → List Char → Bool
  | [], _ => true
  | _ :: _, [] => false
  | a :: as, b :: bs => a == b && listPre as bs

/-- JS `String.prototype.startsWith`. -/
def strPre (pre s : String) : Bool := listPre pre.toList s.toList

/-- Split at the first occurrence of character `d`: returns the part before
and the part after, or `none` when `d` does not occur. -/
def splitAtChar (d : Char) : List Char → Option (List Char × List Char)
  | [] => none
  | c :: rest =>
    if c = d then some ([], rest)
    else
      match splitAtChar d rest with
      | none => none
      | some (a, b) => some (c :: a, b)

/-- JS `String.prototype.split` with a one-character separator, on char
lists.  Always returns at least one part. -/
def splitListOn (d : Char) : List Char → List (List Char)
  | [] => [[]]
  | c :: rest =>
    if c = d then [] :: splitListOn d rest
    else
      match splitListOn d rest with
      | [] => [[c]]
      | a :: as => (c :: a) :: as

/-- JS `Array.prototype.join` with a separator, on char lists. -/
def interJoinL (sep : List Char) : List (List Char) → List Char
  | [] => []
  | [x] => x
  | x :: y :: ys => x ++ sep ++ interJoinL sep (y :: ys)

/-- JS `Array.prototype.join` on strings. -/
def interJoinS (sep : String) (parts : List String) : String :=
  String.mk (interJoinL sep.toList (parts.map String.toList))

/-- JS `String.prototype.replace` with a plain-string pattern: replaces the
first occurrence only. -/
def replaceFirstL (tgt rep : List Char) : List Char → List Char
  | [] => []
  | c :: rest =>
    if listPre tgt (c :: rest) then rep ++ (c :: rest).drop tgt.length
    else c :: replaceFirstL tgt rep rest

/-- JS `String.prototype.replace` with a plain-string pattern, on strings. -/
def replaceFirst (tgt rep s : String) : String :=
  String.mk (replaceFirstL tgt.toList rep.toList s.toList)

/-- ASCII lowercase of one character (sufficient for the key material the
parser lowercases). -/
def lowerChar (c : Char) : Char :=
  if 65 ≤ c.toNat ∧ c.toNat ≤ 90 then Char.ofNat (c.toNat + 32) else c

/-- JS `String.prototype.toLowerCase` (ASCII fragment). -/
def lowerStr (s : String) : String := String.mk (s.toList.map lowerChar)

/-- JS `String.prototype.slice(n)` for an ASCII prefix length. -/
def strDrop (n : Nat) (s : String) : String := String.mk (s.toList.drop n)

/-- JS property read `obj[key]` on an association-list object: first match. -/
def lookupKV : List (String × String) → String → Option String
  | [], _ => none
  | (k, v) :: rest, key => if k = key then some v else lookupKV rest key

/-- JS property assignment used by object literals and spreads: an existing
key keeps its position and gets the new value, a fresh key is appended. -/
def upsert (obj : Seg) (kv : String × String) : Seg :=
  if obj.any (fun p => p.1 == kv.1) then
    obj.map (fun p => if p.1 == kv.1 then (p.1, kv.2) else p)
  else obj ++ [kv]

/-! ## Quote characters and `trimQuote` -/

/-- Double quote. -/
def dqC : Char := Char.ofNat 34
/-- Single quote. -/
def sqC : Char := Char.ofNat 39
/-- Backtick. -/
def bqC : Char := Char.ofNat 96
/-- Left full-width double quote. -/
def ldqC : Char := Char.ofNat 8220
/-- Right full-width double quote. -/
def rdqC : Char := Char.ofNat 8221
/-- Left full-width single quote. -/
def lsqC : Char := Char.ofNat 8216
/-- Right full-width single quote. -/
def rsqC : Char := Char.ofNat 8217

/-- Matching open/close quote pair test. -/
def isQuotePair (a b : Char) : Bool :=
  (a == dqC && b == dqC) || (a == sqC && b == sqC) || (a == bqC && b == bqC) ||
  (a == ldqC && b == rdqC) || (a == lsqC && b == rsqC)

/-- Modelled from the spec: `trimQuote` is imported from `@/utils`, whose
source is not part of src/.  Per the spec, the value "has a single layer of
surrounding matching quote characters stripped if present (double, single,
backtick, or full-width curly — only if both open and close match)". -/
def trimQuote (s : String) : String :=
  let cs := s.toList
  if 2 ≤ cs.length ∧ isQuotePair (cs.headD sqC) (cs.getLastD sqC) = true then
    String.mk ((cs.drop 1).dropLast)
  else s

/-! ## The token scanner (`Message.parse`, step 1) -/

/-- The closing character of the quoted-span regex alternative opened by `c`
(`"[^"]*?"` and friends); `none` when no quote alternative opens at `c`. -/
def closeOf (c : Char) : Option Char :=
  if c = dqC then some dqC
  else if c = sqC then some sqC
  else if c = bqC then some bqC
  else if c = ldqC then some rdqC
  else if c = lsqC then some rsqC
  else none

/-- Try to match the scanner regex
`("[^"]*?"|'[^']*?'|BT[^BT]*?BT|“[^”]*?”|‘[^’]*?’|<[^>]+?>)` (BT = backtick)
at the head of the list.  On success returns the matched span and the
remaining suffix.  The leftmost regex match of the JS code corresponds to
the first position at which `matchAt` succeeds. -/
def matchAt : List Char → Option (List Char × List Char)
  | [] => none
  | c :: rest =>
    if c = '<' then
      match splitAtChar '>' rest with
      | none => none
      | some (inner, suf) =>
        if inner = [] then none else some ('<' :: (inner ++ ['>']), suf)
    else
      match closeOf c with
      | none => none
      | some d =>
        match splitAtChar d rest with
        | none => none
        | some (inner, suf) => some (c :: (inner ++ [d]), suf)

/-- Whether the scanner regex matches anywhere in the list. -/
def hasMatch : List Char → Bool
  | [] => false
  | c :: rest => (matchAt (c :: rest)).isSome || hasMatch rest

/-- One attribute token `key=value...` turned into the object entry the code
builds: split on `=`, lowercase the key, re-join the value parts with `=`
and strip one layer of quotes. -/
def parseAttr (tok : String) : String × String :=
  (lowerStr (String.mk ((splitListOn '=' tok.toList).headD [])),
   trimQuote (String.mk (interJoinL ['='] (splitListOn '=' tok.toList).tail)))

/-- The segment object `{type, ...Object.fromEntries(attrs.map(...))}`. -/
def buildSeg (ty : String) (toks : List String) : Seg :=
  toks.foldl (fun obj tok => upsert obj (parseAttr tok)) [("type", ty)]

/-- The face-shorthand test `/^[a-z]+:[0-9]+$/.test(type)`. -/
def isShorthand (ty : String) : Bool :=
  match splitListOn ':' ty.toList with
  | [a, b] =>
    !a.isEmpty && a.all (fun c => 'a' ≤ c && c ≤ 'z') &&
    !b.isEmpty && b.all (fun c => '0' ≤ c && c ≤ '9')
  | _ => false

/-- The tag-classification chain of `Message.parse` (lines 199-215 of
message.ts).  Returns the normalized type together with the normalized
attribute tokens, or `none` when the original code throws:
* for a `@!`-mention with `payload.mentions` absent, `payload.mentions.find`
  throws a TypeError;
* for `@everyone`, the code sets `attrs = [['all', true]]` and the segment
  construction then calls `attr.split` on that inner array, which throws a
  TypeError at runtime. -/
def classify (m : Option (List Mention)) (ty : String) (attrs : List String) :
    Option (String × List String) :=
  if strPre "faceType" ty then
    some ("face", attrs.map (fun attr => replaceFirst "faceId" "id" attr))
  else if strPre "@" ty then
    if strPre "@!" ty then
      match m with
      | none => none
      | some ms =>
        let u := (ms.find? (fun u => lookupKV u "id" == some (strDrop 2 ty))).getD []
        some ("at", u.map (fun kv => kv.1 ++ "=" ++ kv.2))
    else if ty = "@everyone" then none
    else some (ty, attrs)
  else if isShorthand ty then
    some ("face", ["id=" ++ String.mk ((splitListOn ':' ty.toList).getD 1 [])])
  else some (ty, attrs)

/-- Handling of one matched bracket tag: slice off `<`/`>`, split the inner
text on commas into type and attribute tokens, classify, and produce the
segment together with the text appended to `brief`
(`<type,attr1,attr2,...>` built from the post-normalization tokens). -/
def tagOf (m : Option (List Mention)) (mt : List Char) : Option (Seg × String) :=
  match classify m
      (String.mk ((splitListOn ',' ((mt.drop 1).dropLast)).headD []))
      ((splitListOn ',' ((mt.drop 1).dropLast)).tail.map String.mk) with
  | none => none
  | some (ty, attrs) =>
    some (buildSeg ty attrs, "<" ++ ty ++ "," ++ interJoinS "," attrs ++ ">")

/-- The text segment(s) produced from accumulated plain text: nothing when
the text is empty, else one `{type:'text', text}` segment. -/
def textFlush (acc : List Char) : List Seg :=
  if acc = [] then [] else [[("type", "text"), ("text", String.mk acc)]]

/-- The scanner loop of `Message.parse` (the `while (template.length)` loop
plus the trailing-text push).  `acc` is the text scanned since the last
match.  The `Nat` argument is fuel; since every iteration consumes at least
one character, `length + 1` fuel always suffices (the fuel-exhausted result
is never reached from `parse`). -/
def scanLoop (m : Option (List Mention)) : Nat → List Char → List Char →
    Option (List Seg × String)
  | 0, _, _ => none
  | _ + 1, [], acc => some (textFlush acc, String.mk acc)
  | fuel + 1, c :: rest, acc =>
    match matchAt (c :: rest) with
    | none => scanLoop m fuel rest (acc ++ [c])
    | some (mt, suf) =>
      match scanLoop m fuel suf [] with
      | none => none
      | some (segs, brief) =>
        if mt.headD ' ' = '<' then
          match tagOf m mt with
          | none => none
          | some (seg, tb) =>
            some (textFlush acc ++ seg :: segs, String.mk acc ++ tb ++ brief)
        else
          some (textFlush acc ++ [("type", "text"), ("text", String.mk mt)] :: segs,
                String.mk acc ++ String.mk mt ++ brief)

/-! ## The payload, attachments and `Message.parse` itself -/

/-- One entry of `payload.attachments`.  The JS object is modelled with its
three named fields first and the remaining fields in `extra`. -/
structure Attachment where
  content_type : String
  src : String
  url : String
  extra : List (String × String)
deriving DecidableEq

/-- The inbound payload consumed by `Message.parse`.  `none` models an
absent field; `rest` holds every other field of the payload object. -/
structure Payload where
  content : Option String
  attachments : Option (List Attachment)
  mentions : Option (List Mention)
  rest : List (String × String)
deriving DecidableEq

/-- The attachment type: the part of `content_type` before the first `/`. -/
def attachCat (a : Attachment) : String :=
  String.mk ((splitListOn '/' a.content_type.toList).headD [])

/-- The `data` object of the attachment loop: the attachment minus
`content_type` (original `src`/`url` values). -/
def attachData (a : Attachment) : List (String × String) :=
  ("src", a.src) :: ("url", a.url) :: a.extra

/-- The segment pushed for one attachment:
`{type, ...data, src: https-prefixed, url: https-prefixed}`. -/
def attachSeg (a : Attachment) : Seg :=
  upsert
    (upsert ((attachData a).foldl upsert [("type", attachCat a)])
      ("src", "https://" ++ a.src))
    ("url", "https://" ++ a.url)

/-- The brief text appended for one attachment: built from the original
(unprefixed) `data` entries. -/
def attachBrief (a : Attachment) : String :=
  "<" ++ attachCat a ++ "," ++
    interJoinS "," ((attachData a).map (fun kv => kv.1 ++ "=" ++ kv.2)) ++ ">"

/-- `Message.parse` (message.ts lines 178-256).  Returns the segment list,
the brief string, and the payload as it stands after the call (its
`attachments` and `mentions` deleted); `none` models a thrown exception. -/
def parse (p : Payload) : Option (List Seg × String × Payload) :=
  let tl := (p.content.getD "").toList
  match scanLoop p.mentions (tl.length + 1) tl [] with
  | none => none
  | some (segs, brief) =>
    let r := (p.attachments.getD []).foldl
      (fun acc a => (acc.1 ++ [attachSeg a], acc.2 ++ attachBrief a)) (segs, brief)
    some (r.1, r.2, { p with attachments := none, mentions := none })

/-! ## The guild event model (`GuildMessageEvent`, message.ts lines 128-167)

The `guild` / `channel` getters call the bot collaborators `pickGuild` /
`pickChannel` inside a `try`/`catch` that turns any thrown exception into
`null`.  The collaborators live outside src/ and are abstracted as functions
into `Except` (an `.error` models a throw); the getters themselves are
translated from the source. -/

/-- The slice of the `Bot` collaborator the guild event getters use. -/
structure BotM (G C : Type) where
  pickGuild : String → Except String G
  pickChannel : String → Except String C

/-- The fields of `GuildMessageEvent` the convenience getters read. -/
structure GuildMsgEv (G C : Type) where
  bot : BotM G C
  guild_id : String
  channel_id : String

/-- The `guild` getter: `try { return this.bot.pickGuild(this.guild_id) }
catch { return null }`. -/
def GuildMsgEv.guild (e : GuildMsgEv G C) : Option G :=
  match e.bot.pickGuild e.guild_id with
  | .ok g => some g
  | .error _ => none

/-- The `channel` getter: `try { return this.bot.pickChannel(this.channel_id) }
catch { return null }`. -/
def GuildMsgEv.channel (e : GuildMsgEv G C) : Option C :=
  match e.bot.pickChannel e.channel_id with
  | .ok c => some c
  | .error _ => none

/-! ## Structured bracket-tag inputs

For the universal claims about bracket-tag content, the class of inputs
"content consisting only of bracket tags" is described by a list of `GTag`
values rendered back to the concrete markup string. -/

/-- A source bracket tag: its type token and its raw attribute tokens (the
comma-separated pieces after the type). -/
structure GTag where
  ty : String
  toks : List String
deriving DecidableEq

/-- The inner text of a rendered tag: `ty` alone, or `ty,tok1,tok2,...`. -/
def innerStrOf (t : GTag) : String :=
  if t.toks.isEmpty then t.ty else t.ty ++ "," ++ interJoinS "," t.toks

/-- The rendered source form `<...>` of a tag. -/
def renderTag (t : GTag) : String := "<" ++ innerStrOf t ++ ">"

/-- Content consisting only of bracket tags, in order. -/
def renderTags : List GTag → String
  | [] => ""
  | t :: ts => renderTag t ++ renderTags ts

/-- The brief text the code emits for a normalized tag: always
`<type,tok1,...,tokn>`, with the comma present even for zero tokens. -/
def briefTag (ty : String) (toks : List String) : String :=
  "<" ++ ty ++ "," ++ interJoinS "," toks ++ ">"

/-- A character that would interfere with tag tokenization: the comma that
separates tokens or the closing angle bracket. -/
def noCG (s : String) : Prop := ',' ∉ s.toList ∧ '>' ∉ s.toList

/-- Well-formed source tag: its tokens contain no separator characters and
the rendered inner text is non-empty. -/
def wfTag (t : GTag) : Prop :=
  noCG t.ty ∧ (∀ tok ∈ t.toks, noCG tok) ∧ (t.ty ≠ "" ∨ t.toks ≠ [])

/-- The pure normalization performed by the classification chain on the
branches that do not consult `payload.mentions` (everything except
`@!`-mentions and `@everyone`). -/
def cf (t : GTag) : String × List String :=
  if strPre "faceType" t.ty then
    ("face", t.toks.map (fun attr => replaceFirst "faceId" "id" attr))
  else if strPre "@" t.ty then (t.ty, t.toks)
  else if isShorthand t.ty then
    ("face", ["id=" ++ String.mk ((splitListOn ':' t.ty.toList).getD 1 [])])
  else (t.ty, t.toks)

/-- The tag class of the brief-idempotence claim: well-formed, at least one
attribute token, and not a mention reference (`@!...` or `@everyone`). -/
def goodTag (t : GTag) : Prop :=
  wfTag t ∧ t.toks ≠ [] ∧ strPre "@!" t.ty = false ∧ t.ty ≠ "@everyone"

/-- The tag after normalization: the structured form whose rendering is the
brief output of the original tag. -/
def normTag (t : GTag) : GTag := ⟨(cf t).1, (cf t).2⟩

/-- Key part of an attribute token (before the first `=`). -/
def keyOfTok (tok : String) : String :=
  String.mk ((splitListOn '=' tok.toList).headD [])

/-- Value part of an attribute token (after the first `=`, re-joined). -/
def valOfTok (tok : String) : String :=
  String.mk (interJoinL ['='] (splitListOn '=' tok.toList).tail)

/-- The brief string produced for a list of structured tags, given the
normalization result of each tag. -/
def briefsOf (nf : GTag → String × List String) : List GTag → String
  | [] => ""
  | t :: ts => briefTag (nf t).1 (nf t).2 ++ briefsOf nf ts

/-- The brief text appended for a list of attachments. -/
def attachBriefs : List Attachment → String
  | [] => ""
  | a :: as => attachBrief a ++ attachBriefs as

/-! ## Basic lemmas about the string helpers -/

theorem mk_toList (s : String) : String.mk s.toList = s := rfl

theorem toList_app (a b : String) : (a ++ b).toList = a.toList ++ b.toList := by
  cases a; cases b; rfl

theorem dropLast_app_single (l : List Char) (a : Char) :
    (l ++ [a]).dropLast = l := by
  induction l with
  | nil => rfl
  | cons c cs ih =>
    cases cs with
    | nil => rfl
    | cons d ds => simp only [List.cons_append, List.dropLast_cons₂] at ih ⊢; rw [ih]

theorem splitAtChar_app (d : Char) (xs ys : List Char) (h : d ∉ xs) :
    splitAtChar d (xs ++ d :: ys) = some (xs, ys) := by
  induction xs with
  | nil => simp [splitAtChar]
  | cons c cs ih =>
    have hcd : ¬ c = d := fun hc => h (hc ▸ List.mem_cons_self c cs)
    have hmem : d ∉ cs := fun hm => h (List.mem_cons_of_mem c hm)
    simp [splitAtChar, hcd, ih hmem]

theorem splitListOn_nomem (d : Char) (xs : List Char) (h : d ∉ xs) :
    splitListOn d xs = [xs] := by
  induction xs with
  | nil => rfl
  | cons c cs ih =>
    have hcd : ¬ c = d := fun hc => h (hc ▸ List.mem_cons_self c cs)
    have hmem : d ∉ cs := fun hm => h (List.mem_cons_of_mem c hm)
    simp [splitListOn, hcd, ih hmem]

theorem splitListOn_app (d : Char) (xs ys : List Char) (h : d ∉ xs) :
    splitListOn d (xs ++ d :: ys) = xs :: splitListOn d ys := by
  induction xs with
  | nil => simp [splitListOn]
  | cons c cs ih =>
    have hcd : ¬ c = d := fun hc => h (hc ▸ List.mem_cons_self c cs)
    have hmem : d ∉ cs := fun hm => h (List.mem_cons_of_mem c hm)
    have hne : splitListOn d (cs ++ d :: ys) ≠ [] := by
      rw [ih hmem]; exact List.cons_ne_nil _ _
    rw [List.cons_append]
    rw [splitListOn]
    simp only [hcd, if_false]
    rw [ih hmem]

theorem splitJoinL (d : Char) (ps : List (List Char)) (hne : ps ≠ [])
    (h : ∀ p ∈ ps, d ∉ p) : splitListOn d (interJoinL [d] ps) = ps := by
  induction ps with
  | nil => exact absurd rfl hne
  | cons x xs ih =>
    cases xs with
    | nil =>
      simpa [interJoinL] using splitListOn_nomem d x (h x (List.mem_cons_self _ _))
    | cons y ys =>
      have hx : d ∉ x := h x (List.mem_cons_self _ _)
      have hrest : ∀ p ∈ y :: ys, d ∉ p := fun p hp => h p (List.mem_cons_of_mem _ hp)
      have : x ++ [d] ++ interJoinL [d] (y :: ys) = x ++ d :: interJoinL [d] (y :: ys) := by
        simp
      rw [interJoinL, this, splitListOn_app d x _ hx, ih (List.cons_ne_nil _ _) hrest]

theorem splitListOn_ne_nil (d : Char) (l : List Char) : splitListOn d l ≠ [] := by
  cases l with
  | nil => simp [splitListOn]
  | cons c cs =>
    rw [splitListOn]
    by_cases hc : c = d
    · simp [hc]
    · simp only [hc, if_false]
      cases splitListOn d cs with
      | nil => simp
      | cons a as => simp

theorem joinSplitL (d : Char) (l : List Char) :
    interJoinL [d] (splitListOn d l) = l := by
  induction l with
  | nil => rfl
  | cons c cs ih =>
    rw [splitListOn]
    by_cases hc : c = d
    · simp only [if_pos hc]
      cases hsp : splitListOn d cs with
      | nil => exact absurd hsp (splitListOn_ne_nil d cs)
      | cons a as =>
        rw [hsp] at ih
        rw [interJoinL]
        simp [hc, ih]
    · simp only [hc, if_false]
      cases hsp : splitListOn d cs with
      | nil => exact absurd hsp (splitListOn_ne_nil d cs)
      | cons a as =>
        rw [hsp] at ih
        cases as with
        | nil =>
          rw [interJoinL] at ih ⊢
          simp [ih]
        | cons b bs =>
          rw [interJoinL] at ih ⊢
          simp [ih]

theorem map_mk_toList (l : List String) :
    (l.map String.toList).map String.mk = l := by
  induction l with
  | nil => rfl
  | cons s ss ih => simp [ih, mk_toList]

theorem str_ext (a b : String) (h : a.toList = b.toList) : a = b := by
  have h2 := congrArg String.mk h
  rw [mk_toList, mk_toList] at h2
  exact h2

theorem toList_eq_nil (s : String) : s.toList = [] ↔ s = "" := by
  constructor
  · intro h; exact str_ext s "" h
  · intro h; rw [h]; rfl

theorem empty_append_str (s : String) : "" ++ s = s := by
  cases s; rfl

theorem interJoinL_sub (sep : List Char) (ps : List (List Char)) (c : Char)
    (h : c ∈ interJoinL sep ps) : c ∈ sep ∨ ∃ p ∈ ps, c ∈ p := by
  induction ps with
  | nil => rw [interJoinL] at h; exact absurd h (List.not_mem_nil c)
  | cons x xs ih =>
    cases xs with
    | nil =>
      rw [interJoinL] at h
      exact Or.inr ⟨x, List.mem_cons_self _ _, h⟩
    | cons y ys =>
      rw [interJoinL] at h
      simp only [List.mem_append] at h
      rcases h with (h | h) | h
      · exact Or.inr ⟨x, List.mem_cons_self _ _, h⟩
      · exact Or.inl h
      · rcases ih h with h2 | ⟨p, hp, hc⟩
        · exact Or.inl h2
        · exact Or.inr ⟨p, List.mem_cons_of_mem _ hp, hc⟩

/-! ## The scanner on structured inputs -/

theorem matchAt_tag (inner rest : List Char) (hne : inner ≠ [])
    (hgt : '>' ∉ inner) :
    matchAt ('<' :: (inner ++ '>' :: rest)) = some ('<' :: (inner ++ ['>']), rest) := by
  rw [matchAt]
  simp only [if_pos rfl]
  rw [splitAtChar_app '>' inner rest hgt]
  simp [hne]

theorem innerStrOf_toList (t : GTag) :
    (innerStrOf t).toList =
      (if t.toks.isEmpty then t.ty.toList
       else t.ty.toList ++ ',' :: interJoinL [','] (t.toks.map String.toList)) := by
  rw [innerStrOf]
  by_cases he : t.toks.isEmpty
  · simp [he]
  · simp only [he, if_neg, Bool.false_eq_true, if_false]
    rw [toList_app, toList_app]
    rw [show ("," : String).toList = [','] from rfl]
    rw [show (interJoinS "," t.toks).toList
          = interJoinL [','] (t.toks.map String.toList) from rfl]
    simp [List.append_assoc]

theorem parts_of_tag (t : GTag) (hwf : wfTag t) :
    splitListOn ',' (innerStrOf t).toList = t.ty.toList :: t.toks.map String.toList := by
  rw [innerStrOf_toList]
  by_cases he : t.toks.isEmpty
  · have hnil : t.toks = [] := by
      cases h : t.toks with
      | nil => rfl
      | cons a as => rw [h] at he; simp [List.isEmpty] at he
    simp only [he, if_pos]
    rw [splitListOn_nomem ',' _ hwf.1.1, hnil]
    rfl
  · simp only [he, Bool.false_eq_true, if_false]
    rw [splitListOn_app ',' _ _ hwf.1.1]
    congr 1
    apply splitJoinL
    · intro hmap
      apply he
      rw [List.map_eq_nil_iff.mp hmap]
      rfl
    · intro p hp
      rcases List.mem_map.mp hp with ⟨tok, htok, rfl⟩
      exact (hwf.2.1 tok htok).1

theorem inner_ne_nil (t : GTag) (hwf : wfTag t) : (innerStrOf t).toList ≠ [] := by
  rw [innerStrOf_toList]
  by_cases he : t.toks.isEmpty
  · have hnil : t.toks = [] := by
      cases h : t.toks with
      | nil => rfl
      | cons a as => rw [h] at he; simp [List.isEmpty] at he
    simp only [he, if_pos]
    have hty : t.ty ≠ "" := by
      rcases hwf.2.2 with h | h
      · exact h
      · exact absurd hnil h
    intro hl
    exact hty ((toList_eq_nil t.ty).mp hl)
  · simp only [he, Bool.false_eq_true, if_false]
    intro hl
    rcases List.append_eq_nil.mp hl with ⟨_, h2⟩
    exact List.cons_ne_nil _ _ h2

theorem inner_gtfree (t : GTag) (hwf : wfTag t) : '>' ∉ (innerStrOf t).toList := by
  rw [innerStrOf_toList]
  by_cases he : t.toks.isEmpty
  · simp only [he, if_pos]
    exact hwf.1.2
  · simp only [he, Bool.false_eq_true, if_false]
    intro h
    rcases List.mem_append.mp h with h | h
    · exact hwf.1.2 h
    · rcases List.mem_cons.mp h with h | h
      · exact absurd h (by decide)
      · rcases interJoinL_sub [','] _ '>' h with h2 | ⟨p, hp, hc⟩
        · exact absurd (List.mem_singleton.mp h2) (by decide)
        · rcases List.mem_map.mp hp with ⟨tok, htok, rfl⟩
          exact (hwf.2.1 tok htok).2 hc

theorem tagOf_render (m : Option (List Mention)) (t : GTag)
    (res : String × List String) (hwf : wfTag t)
    (hcl : classify m t.ty t.toks = some res) :
    tagOf m ('<' :: ((innerStrOf t).toList ++ ['>'])) =
      some (buildSeg res.1 res.2, briefTag res.1 res.2) := by
  obtain ⟨rty, rattrs⟩ := res
  rw [tagOf]
  rw [show (('<' :: ((innerStrOf t).toList ++ ['>'])).drop 1).dropLast
        = (innerStrOf t).toList by
    simp only [List.drop_succ_cons, List.drop_zero]
    exact dropLast_app_single _ _]
  rw [parts_of_tag t hwf]
  simp only [List.headD_cons, List.tail_cons]
  rw [mk_toList, map_mk_toList, hcl]
  rfl

theorem scanRender (m : Option (List Mention)) (nf : GTag → String × List String)
    (ts : List GTag) :
    ∀ (fuel : Nat),
    (∀ t ∈ ts, wfTag t) →
    (∀ t ∈ ts, classify m t.ty t.toks = some (nf t)) →
    (renderTags ts).toList.length < fuel →
    scanLoop m fuel (renderTags ts).toList [] =
      some (ts.map (fun t => buildSeg (nf t).1 (nf t).2), briefsOf nf ts) := by
  induction ts with
  | nil =>
    intro fuel _ _ hf
    cases fuel with
    | zero => simp [renderTags] at hf
    | succ n => rfl
  | cons t ts ih =>
    intro fuel hwf hcl hf
    have hwt : wfTag t := hwf t (List.mem_cons_self _ _)
    have hct : classify m t.ty t.toks = some (nf t) := hcl t (List.mem_cons_self _ _)
    have hlist : (renderTags (t :: ts)).toList
        = '<' :: ((innerStrOf t).toList ++ '>' :: (renderTags ts).toList) := by
      rw [renderTags, toList_app, renderTag, toList_app, toList_app]
      rw [show ("<" : String).toList = ['<'] from rfl]
      rw [show (">" : String).toList = ['>'] from rfl]
      simp [List.append_assoc]
    cases fuel with
    | zero => simp at hf
    | succ n =>
      rw [hlist]
      rw [scanLoop]
      rw [matchAt_tag _ _ (inner_ne_nil t hwt) (inner_gtfree t hwt)]
      dsimp only
      have hlen : (renderTags ts).toList.length < n := by
        rw [hlist] at hf
        simp only [List.length_cons, List.length_append] at hf
        omega
      rw [ih n (fun u hu => hwf u (List.mem_cons_of_mem _ hu))
        (fun u hu => hcl u (List.mem_cons_of_mem _ hu)) hlen]
      rw [tagOf_render m t (nf t) hwt hct]
      simp only [List.headD_cons, if_pos rfl]
      rw [show textFlush [] = [] from rfl]
      rw [List.map_cons, briefsOf]
      rw [show String.mk [] = "" from rfl, empty_append_str]
      rfl

theorem strAppend_assoc (a b c : String) : a ++ b ++ c = a ++ (b ++ c) := by
  apply str_ext
  rw [toList_app, toList_app, toList_app, toList_app, List.append_assoc]

theorem strAppend_empty (s : String) : s ++ "" = s := by
  apply str_ext
  rw [toList_app]
  simp [show ("" : String).toList = [] from rfl]

/-! ## The scanner on match-free content -/

theorem scan_noMatch (m : Option (List Mention)) :
    ∀ (s : List Char) (fuel : Nat) (acc : List Char), s.length < fuel →
    hasMatch s = false →
    scanLoop m fuel s acc = some (textFlush (acc ++ s), String.mk (acc ++ s)) := by
  intro s
  induction s with
  | nil =>
    intro fuel acc hf _
    cases fuel with
    | zero => simp at hf
    | succ n => simp [scanLoop]
  | cons c rest ih =>
    intro fuel acc hf hm
    cases fuel with
    | zero => simp at hf
    | succ n =>
      have hmt : matchAt (c :: rest) = none := by
        cases hx : matchAt (c :: rest) with
        | none => rfl
        | some v => rw [hasMatch, hx] at hm; simp at hm
      have hrest : hasMatch rest = false := by
        rw [hasMatch, hmt] at hm
        simpa using hm
      rw [scanLoop, hmt]
      dsimp only
      have hlen : rest.length < n := by
        simp only [List.length_cons] at hf; omega
      rw [ih n (acc ++ [c]) hlen hrest]
      simp

/-! ## The shape of a successful `parse` -/

theorem attach_fold (l : List Attachment) :
    ∀ (s0 : List Seg) (b0 : String),
    l.foldl (fun acc a => (acc.1 ++ [attachSeg a], acc.2 ++ attachBrief a)) (s0, b0)
      = (s0 ++ l.map attachSeg, b0 ++ attachBriefs l) := by
  induction l with
  | nil => intro s0 b0; simp [attachBriefs, strAppend_empty]
  | cons a as ih =>
    intro s0 b0
    rw [List.foldl_cons, ih]
    rw [attachBriefs, List.map_cons]
    rw [← strAppend_assoc]
    simp

theorem parse_shape (p : Payload) (segs : List Seg) (brief : String) (p2 : Payload)
    (h : parse p = some (segs, brief, p2)) :
    ∃ ssegs sbrief,
      scanLoop p.mentions ((p.content.getD "").toList.length + 1)
        (p.content.getD "").toList [] = some (ssegs, sbrief) ∧
      segs = ssegs ++ (p.attachments.getD []).map attachSeg ∧
      brief = sbrief ++ attachBriefs (p.attachments.getD []) ∧
      p2 = { p with attachments := none, mentions := none } := by
  rw [parse] at h
  simp only at h
  cases hs : scanLoop p.mentions ((p.content.getD "").toList.length + 1)
      (p.content.getD "").toList [] with
  | none => rw [hs] at h; simp at h
  | some r =>
    obtain ⟨ss, sb⟩ := r
    rw [hs] at h
    dsimp only at h
    rw [attach_fold] at h
    dsimp only at h
    rw [Option.some.injEq, Prod.mk.injEq, Prod.mk.injEq] at h
    exact ⟨ss, sb, rfl, h.1.symm, h.2.1.symm, h.2.2.symm⟩

/-! ## Object-construction lemmas -/

theorem upsert_notMem (obj : Seg) (kv : String × String)
    (h : ∀ p ∈ obj, p.1 ≠ kv.1) : upsert obj kv = obj ++ [kv] := by
  rw [upsert]
  have hany : obj.any (fun p => p.1 == kv.1) = false := by
    rw [List.any_eq_false]
    intro p hp
    simpa using h p hp
  simp [hany]

theorem foldUpsert_append (l : List (String × String)) :
    ∀ (base : Seg),
    (∀ kv ∈ l, ∀ p ∈ base, p.1 ≠ kv.1) →
    (l.map Prod.fst).Nodup →
    l.foldl upsert base = base ++ l := by
  induction l with
  | nil => intro base _ _; simp
  | cons kv rest ih =>
    intro base hdisj hnd
    rw [List.foldl_cons, upsert_notMem base kv (fun p hp => hdisj kv (List.mem_cons_self _ _) p hp)]
    rw [ih (base ++ [kv])]
    · simp
    · intro kv2 h2 p hp
      rcases List.mem_append.mp hp with hp | hp
      · exact hdisj kv2 (List.mem_cons_of_mem _ h2) p hp
      · rw [List.mem_singleton.mp hp]
        intro he
        rw [List.map_cons, List.nodup_cons] at hnd
        exact hnd.1 (he ▸ List.mem_map_of_mem Prod.fst h2)
    · rw [List.map_cons, List.nodup_cons] at hnd
      exact hnd.2

theorem map_upsert_skip (k v : String) (l : Seg) (h : ∀ p ∈ l, p.1 ≠ k) :
    l.map (fun p => if p.1 == k then (p.1, v) else p) = l := by
  induction l with
  | nil => rfl
  | cons p ps ih =>
    rw [List.map_cons]
    have h1 : (p.1 == k) = false := by
      simpa using h p (List.mem_cons_self _ _)
    rw [h1]
    simp only [Bool.false_eq_true, if_false]
    rw [ih (fun q hq => h q (List.mem_cons_of_mem _ hq))]

theorem upsert_update (pre post : Seg) (k vOld v : String)
    (hpre : ∀ p ∈ pre, p.1 ≠ k) (hpost : ∀ p ∈ post, p.1 ≠ k) :
    upsert (pre ++ (k, vOld) :: post) (k, v) = pre ++ (k, v) :: post := by
  rw [upsert]
  have hany : (pre ++ (k, vOld) :: post).any (fun p => p.1 == k) = true := by
    rw [List.any_eq_true]
    exact ⟨(k, vOld), by simp, by simp⟩
  rw [if_pos hany, List.map_append, List.map_cons]
  rw [map_upsert_skip k v pre hpre, map_upsert_skip k v post hpost]
  simp

theorem attachSeg_eq (a : Attachment)
    (hex : ∀ kv ∈ a.extra, kv.1 ≠ "type" ∧ kv.1 ≠ "src" ∧ kv.1 ≠ "url")
    (hnd : (a.extra.map Prod.fst).Nodup) :
    attachSeg a = ("type", attachCat a) :: ("src", "https://" ++ a.src) ::
      ("url", "https://" ++ a.url) :: a.extra := by
  rw [attachSeg, attachData, List.foldl_cons, List.foldl_cons]
  rw [upsert_notMem [("type", attachCat a)] ("src", a.src) (by simp)]
  rw [upsert_notMem ([("type", attachCat a)] ++ [("src", a.src)]) ("url", a.url)
    (by simp)]
  rw [foldUpsert_append a.extra _ (by
    intro kv hkv p hp
    have h3 := hex kv hkv
    simp only [List.append_assoc, List.cons_append, List.nil_append,
      List.mem_cons, List.not_mem_nil, or_false] at hp
    rcases hp with hp | hp | hp
    · rw [hp]; exact fun he => h3.1 he.symm
    · rw [hp]; exact fun he => h3.2.1 he.symm
    · rw [hp]; exact fun he => h3.2.2 he.symm) hnd]
  have hsrc := upsert_update [("type", attachCat a)] (("url", a.url) :: a.extra)
    "src" a.src ("https://" ++ a.src)
    (by simp)
    (by
      intro p hp
      rcases List.mem_cons.mp hp with hp | hp
      · rw [hp]; simp
      · exact (hex p hp).2.1)
  simp only [List.cons_append, List.nil_append] at hsrc ⊢
  rw [hsrc]
  have hurl := upsert_update [("type", attachCat a), ("src", "https://" ++ a.src)]
    a.extra "url" a.url ("https://" ++ a.url)
    (by simp)
    (fun p hp => (hex p hp).2.2)
  simp only [List.cons_append, List.nil_append] at hurl
  rw [hurl]

theorem interJoinS_pair (x y : String) : interJoinS "," [x, y] = x ++ "," ++ y := by
  apply str_ext
  rw [toList_app, toList_app]
  rw [show (interJoinS "," [x, y]).toList
    = interJoinL [','] [x.toList, y.toList] from rfl]
  rw [show interJoinL [','] [x.toList, y.toList]
    = x.toList ++ [','] ++ y.toList from rfl]
  rfl

/-! ## Claim theorems -/

/-- Claim C1.  The claim states that `<@everyone>` always yields the segment
with type `at` and a truthy `all` attribute and never throws.  On the code
as written this is false: the `@everyone` branch sets
`attrs = [['all', true]]`, and the segment construction then calls
`attr.split('=')` on that inner array, which is a TypeError at runtime (the
code also contradicts its own `(attr: string)` annotation there).  This
theorem evaluates the embedded code at the failing input: the parse throws
(modelled as `none`). -/
theorem parse_everyone_throws :
    parse { content := some "<@everyone>", attachments := none,
            mentions := some [], rest := [] } = none := by rfl

/-- Claim C2.  The claim states that `Message.parse` never raises when
`attachments` or `mentions` is missing, for any content — in particular for
content with an `@!`-mention tag.  On the code this is false: with
`payload.mentions` absent, the `@!` branch evaluates
`payload.mentions.find(...)`, a TypeError on `undefined` (unlike
`payload.attachments`, which is guarded by an `if`).  This theorem
evaluates the embedded code at the failing input. -/
theorem parse_missing_mentions_throws :
    parse { content := some "<@!1>", attachments := none, mentions := none,
            rest := [] } = none := by rfl

/-- Claim C3: for a payload with no attachments whose content has no match
of the scanner regex (no quoted span, no bracket tag), `parse` returns the
single text segment carrying the whole content and a brief equal to the
content; for empty content it returns no segments and an empty brief. -/
theorem parse_text_only (p : Payload)
    (hm : hasMatch (p.content.getD "").toList = false)
    (ha : p.attachments = none) :
    parse p = some
      ((if p.content.getD "" = "" then []
        else [[("type", "text"), ("text", p.content.getD "")]]),
       p.content.getD "",
       { p with attachments := none, mentions := none }) := by
  have htf : textFlush ([] ++ (p.content.getD "").toList)
      = (if p.content.getD "" = "" then []
         else [[("type", "text"), ("text", p.content.getD "")]]) := by
    rw [List.nil_append, textFlush]
    by_cases hc : p.content.getD "" = ""
    · rw [if_pos ((toList_eq_nil _).mpr hc), if_pos hc]
    · rw [if_neg (fun hl => hc ((toList_eq_nil _).mp hl)), if_neg hc, mk_toList]
  rw [parse]
  simp only
  rw [scan_noMatch p.mentions _ _ [] (Nat.lt_succ_self _) hm]
  dsimp only
  rw [htf, List.nil_append, mk_toList, ha]
  rfl

/-- Witness for C3: a plain text content and the empty content. -/
theorem parse_text_only_witness :
    hasMatch ("hi there" : String).toList = false ∧
    parse { content := some "hi there", attachments := none, mentions := some [],
            rest := [("id", "1")] } =
      some ([[("type", "text"), ("text", "hi there")]], "hi there",
        { content := some "hi there", attachments := none, mentions := none,
          rest := [("id", "1")] }) := by
  refine ⟨by decide, ?_⟩
  have h := parse_text_only
    { content := some "hi there", attachments := none, mentions := some [],
      rest := [("id", "1")] } (by decide) rfl
  simpa using h

/-- Claim C6: whenever `parse` returns, the segment list is the scanner
output followed by one segment per attachment in array order. -/
theorem parse_segment_order (p : Payload) (segs : List Seg) (brief : String)
    (p2 : Payload) (h : parse p = some (segs, brief, p2)) :
    ∃ ssegs sbrief,
      scanLoop p.mentions ((p.content.getD "").toList.length + 1)
        (p.content.getD "").toList [] = some (ssegs, sbrief) ∧
      segs = ssegs ++ (p.attachments.getD []).map attachSeg := by
  obtain ⟨ss, sb, h1, h2, _, _⟩ := parse_shape p segs brief p2 h
  exact ⟨ss, sb, h1, h2⟩

/-- Witness for C6: a payload with text content and one attachment. -/
theorem parse_segment_order_witness :
    ∃ ssegs sbrief,
      scanLoop (some []) (("hi" : String).toList.length + 1)
        ("hi" : String).toList [] = some (ssegs, sbrief) ∧
      [[("type", "text"), ("text", "hi")],
       [("type", "image"), ("src", "https://a"), ("url", "https://a")]] =
        ssegs ++ [{ content_type := "image/png", src := "a", url := "a",
                    extra := [] : Attachment }].map attachSeg := by
  have h := parse_segment_order
    { content := some "hi",
      attachments := some [{ content_type := "image/png", src := "a", url := "a",
                             extra := [] }],
      mentions := some [], rest := [] }
    [[("type", "text"), ("text", "hi")],
     [("type", "image"), ("src", "https://a"), ("url", "https://a")]]
    "hi<image,src=a,url=a>"
    { content := some "hi", attachments := none, mentions := none, rest := [] }
    (by rfl)
  simpa using h

/-- Claim C9: whenever `parse` returns, the payload afterwards has its
`attachments` and `mentions` fields absent and every other field (content
included) unchanged. -/
theorem parse_consumes_payload (p : Payload) (segs : List Seg) (brief : String)
    (p2 : Payload) (h : parse p = some (segs, brief, p2)) :
    p2.attachments = none ∧ p2.mentions = none ∧
    p2.content = p.content ∧ p2.rest = p.rest := by
  obtain ⟨_, _, _, _, _, hp⟩ := parse_shape p segs brief p2 h
  rw [hp]
  exact ⟨rfl, rfl, rfl, rfl⟩

/-- Claim C4: whenever `parse` returns, every attachment contributes a
segment whose `type` is the part of `content_type` before the `/`, whose
`src` and `url` are the original values prefixed with `https://`, and which
carries all remaining attachment fields.  The extra fields are assumed not
to shadow `type`/`src`/`url` and to have pairwise distinct names (as JS
object fields do). -/
theorem parse_attachment_segment (p : Payload) (segs : List Seg) (brief : String)
    (p2 : Payload) (h : parse p = some (segs, brief, p2))
    (a : Attachment) (ha : a ∈ p.attachments.getD [])
    (hex : ∀ kv ∈ a.extra, kv.1 ≠ "type" ∧ kv.1 ≠ "src" ∧ kv.1 ≠ "url")
    (hnd : (a.extra.map Prod.fst).Nodup) :
    (("type", attachCat a) :: ("src", "https://" ++ a.src) ::
      ("url", "https://" ++ a.url) :: a.extra) ∈ segs := by
  obtain ⟨ss, sb, _, h2, _, _⟩ := parse_shape p segs brief p2 h
  rw [h2]
  apply List.mem_append_right
  rw [← attachSeg_eq a hex hnd]
  exact List.mem_map_of_mem attachSeg ha

/-- Witness for C4: the attachment of the claim's example. -/
theorem parse_attachment_segment_witness :
    ([("type", "image"), ("src", "https://cdn.x/a.png"), ("url", "https://cdn.x/a.png")] : Seg) ∈
      [[("type", "image"), ("src", "https://cdn.x/a.png"), ("url", "https://cdn.x/a.png")]] := by
  have h := parse_attachment_segment
    { content := some "",
      attachments := some [{ content_type := "image/png", src := "cdn.x/a.png",
                             url := "cdn.x/a.png", extra := [] }],
      mentions := some [], rest := [] }
    [[("type", "image"), ("src", "https://cdn.x/a.png"), ("url", "https://cdn.x/a.png")]]
    "<image,src=cdn.x/a.png,url=cdn.x/a.png>"
    { content := some "", attachments := none, mentions := none, rest := [] }
    (by rfl)
    { content_type := "image/png", src := "cdn.x/a.png", url := "cdn.x/a.png",
      extra := [] }
    (by simp)
    (by simp)
    (by simp)
  have e1 : attachCat { content_type := "image/png", src := "cdn.x/a.png", url := "cdn.x/a.png", extra := [] } = "image" := rfl
  rw [e1] at h
  have e2 : "https://" ++ "cdn.x/a.png" = "https://cdn.x/a.png" := rfl
  rw [e2] at h
  exact h

/-- Claim C8: the `guild` and `channel` getters of `GuildMessageEvent`
return `null` (modelled `none`) whenever the underlying `pickGuild` /
`pickChannel` call throws, and never propagate the exception. -/
theorem guild_channel_null_on_throw (G C : Type) (e : GuildMsgEv G C) :
    (∀ msg, e.bot.pickGuild e.guild_id = Except.error msg → e.guild = none) ∧
    (∀ msg, e.bot.pickChannel e.channel_id = Except.error msg → e.channel = none) := by
  constructor
  · intro msg h
    rw [GuildMsgEv.guild, h]
  · intro msg h
    rw [GuildMsgEv.channel, h]

/-- Witness for C8: a bot whose lookups always throw. -/
theorem guild_channel_null_on_throw_witness :
    GuildMsgEv.guild (G := Nat) (C := Nat)
      { bot := { pickGuild := fun _ => Except.error "boom",
                 pickChannel := fun _ => Except.error "boom" },
        guild_id := "g", channel_id := "c" } = none ∧
    GuildMsgEv.channel (G := Nat) (C := Nat)
      { bot := { pickGuild := fun _ => Except.error "boom",
                 pickChannel := fun _ => Except.error "boom" },
        guild_id := "g", channel_id := "c" } = none := by
  constructor
  · exact (guild_channel_null_on_throw Nat Nat _).1 "boom" rfl
  · exact (guild_channel_null_on_throw Nat Nat _).2 "boom" rfl

/-- A successful `parse` on a payload whose content is a rendered tag list
and which carries no attachments: every tag classifies successfully, the
segments are the per-tag objects and the brief is the per-tag rendering. -/
theorem parse_renderTags (ts : List GTag) (m : Option (List Mention))
    (prest : List (String × String)) (nf : GTag → String × List String)
    (hwf : ∀ t ∈ ts, wfTag t)
    (hcl : ∀ t ∈ ts, classify m t.ty t.toks = some (nf t)) :
    parse { content := some (renderTags ts), attachments := none, mentions := m,
            rest := prest } =
      some (ts.map (fun t => buildSeg (nf t).1 (nf t).2), briefsOf nf ts,
        { content := some (renderTags ts), attachments := none, mentions := none,
          rest := prest }) := by
  rw [parse]
  simp only [Option.getD_some]
  rw [scanRender m nf ts _ hwf hcl (Nat.lt_succ_self _)]
  rfl

/-- Claim C10 (implicit): the brief text can disagree with the structured
segment beyond casing.  First part: an attachment's brief rendering uses the
original `src`/`url` values without the `https://` prefix, while the segment
carries the prefixed values.  Second part: a bracket tag with zero
attributes (and a type the classification chain passes through) is rendered
into brief as `<type,>`, with a trailing comma. -/
theorem brief_diverges_from_segment :
    (∀ (ct s u : String) (m : Option (List Mention)) (prest : List (String × String)),
      parse { content := some "", attachments := some [⟨ct, s, u, []⟩],
              mentions := m, rest := prest } =
        some ([[("type", attachCat ⟨ct, s, u, []⟩), ("src", "https://" ++ s),
                ("url", "https://" ++ u)]],
          "<" ++ attachCat ⟨ct, s, u, []⟩ ++ "," ++ ("src" ++ "=" ++ s) ++ ","
            ++ ("url" ++ "=" ++ u) ++ ">",
          { content := some "", attachments := none, mentions := none,
            rest := prest })) ∧
    (∀ (ty : String) (m : Option (List Mention)) (prest : List (String × String)),
      noCG ty → ty ≠ "" → strPre "faceType" ty = false → strPre "@" ty = false →
      isShorthand ty = false →
      parse { content := some ("<" ++ ty ++ ">"), attachments := none,
              mentions := m, rest := prest } =
        some ([[("type", ty)]], "<" ++ ty ++ ",>",
          { content := some ("<" ++ ty ++ ">"), attachments := none,
            mentions := none, rest := prest })) := by
  constructor
  · intro ct s u m prest
    rw [parse]
    simp only [Option.getD_some]
    rw [show scanLoop m ((("" : String).toList).length + 1) ("" : String).toList []
      = some ([], "") from rfl]
    dsimp only
    rw [List.foldl_cons, List.foldl_nil]
    dsimp only
    rw [attachSeg_eq ⟨ct, s, u, []⟩ (by simp) (by simp)]
    rw [attachBrief, attachData]
    dsimp only [List.map_cons, List.map_nil]
    rw [interJoinS_pair]
    rw [List.nil_append, empty_append_str]
    congr 2
    rw [Prod.mk.injEq]
    refine ⟨?_, rfl⟩
    apply str_ext
    simp only [toList_app, List.append_assoc]
  · intro ty m prest hcg hne hft hat hsh
    have hwf1 : wfTag ⟨ty, []⟩ := ⟨hcg, by simp, Or.inl hne⟩
    have hcl1 : classify m ty [] = some (ty, []) := by
      rw [classify.eq_def, hft, hat, hsh]
      simp
    have h := parse_renderTags [⟨ty, []⟩] m prest (fun _ => (ty, []))
      (by simpa using hwf1) (by simpa using hcl1)
    have hr : renderTags [⟨ty, []⟩] = "<" ++ ty ++ ">" := by
      rw [renderTags, renderTags, renderTag, innerStrOf]
      simp [strAppend_empty]
    rw [hr] at h
    have hb : briefsOf (fun _ => (ty, [])) [⟨ty, []⟩] = "<" ++ ty ++ ",>" := by
      rw [briefsOf, briefsOf, briefTag, strAppend_empty]
      apply str_ext
      rw [show (interJoinS "," ([] : List String)) = "" from rfl]
      rw [strAppend_empty]
      simp only [toList_app, List.append_assoc]
      rfl
    rw [hb] at h
    simpa using h

/-- Evaluation of the classification chain on a `@!`-mention tag with
`mentions` present. -/
theorem classify_mention (ms : List Mention) (id : String) (attrs0 : List String) :
    classify (some ms) ("@!" ++ id) attrs0 =
      some ("at", (((ms.find? (fun r => lookupKV r "id" == some id)).getD []).map
        (fun kv => kv.1 ++ "=" ++ kv.2))) := by
  have h0 : ("@!" ++ id).toList = '@' :: '!' :: id.toList := by
    rw [toList_app]; rfl
  have hft : strPre "faceType" ("@!" ++ id) = false := by
    rw [strPre, h0]; rfl
  have hat : strPre "@" ("@!" ++ id) = true := by
    rw [strPre, h0]
    simp [listPre]
  have hbang : strPre "@!" ("@!" ++ id) = true := by
    rw [strPre, h0]
    simp [listPre]
  have hdrop : strDrop 2 ("@!" ++ id) = id := by
    rw [strDrop, h0]
    exact mk_toList id
  rw [classify.eq_def, hft, hat, hbang, hdrop]
  simp

theorem parseAttr_pair (k v : String) (hk : '=' ∉ k.toList)
    (hlow : lowerStr k = k) (hq : trimQuote v = v) :
    parseAttr (k ++ "=" ++ v) = (k, v) := by
  have h1 : (k ++ "=" ++ v).toList = k.toList ++ '=' :: v.toList := by
    rw [toList_app, toList_app]
    simp [List.append_assoc]
  rw [parseAttr, h1, splitListOn_app '=' _ _ hk]
  dsimp only [List.headD_cons, List.tail_cons]
  rw [mk_toList, hlow, joinSplitL, mk_toList, hq]

theorem foldUpsertAttr (u : List (String × String)) :
    ∀ base : Seg,
    (∀ kv ∈ u, parseAttr (kv.1 ++ "=" ++ kv.2) = kv) →
    (∀ kv ∈ u, ∀ p ∈ base, p.1 ≠ kv.1) →
    (u.map Prod.fst).Nodup →
    u.foldl (fun obj kv => upsert obj (parseAttr (kv.1 ++ "=" ++ kv.2))) base
      = base ++ u := by
  induction u with
  | nil => intro base _ _ _; simp
  | cons kv rest ih =>
    intro base hpa hdisj hnd
    rw [List.foldl_cons, hpa kv (List.mem_cons_self _ _),
      upsert_notMem base kv (hdisj kv (List.mem_cons_self _ _))]
    rw [ih (base ++ [kv])]
    · simp
    · intro kv2 h2
      exact hpa kv2 (List.mem_cons_of_mem _ h2)
    · intro kv2 h2 p hp
      rcases List.mem_append.mp hp with hp | hp
      · exact hdisj kv2 (List.mem_cons_of_mem _ h2) p hp
      · rw [List.mem_singleton.mp hp]
        intro he
        rw [List.map_cons, List.nodup_cons] at hnd
        exact hnd.1 (he ▸ List.mem_map_of_mem Prod.fst h2)
    · rw [List.map_cons, List.nodup_cons] at hnd
      exact hnd.2

theorem buildSeg_record (ty : String) (u : List (String × String))
    (hpa : ∀ kv ∈ u, parseAttr (kv.1 ++ "=" ++ kv.2) = kv)
    (hk : ∀ kv ∈ u, kv.1 ≠ "type")
    (hnd : (u.map Prod.fst).Nodup) :
    buildSeg ty (u.map (fun kv => kv.1 ++ "=" ++ kv.2)) = ("type", ty) :: u := by
  rw [buildSeg, List.foldl_map]
  rw [foldUpsertAttr u [("type", ty)] hpa (fun kv hkv p hp => by
    rw [List.mem_singleton.mp hp]
    exact fun he => hk kv hkv he.symm) hnd]
  simp

/-- Claim C7: a `<@!id>` tag with `payload.mentions` present never throws;
with no matching record it degrades to the bare `at` segment, and with a
matching record the segment is the `at` segment extended with every field
of that record.  The record is assumed shaped like a JS mention object:
keys without `=`, already lowercase, distinct, none named `type`, and
values unaffected by quote-stripping. -/
theorem parse_mention_tag (id : String) (ms : List Mention)
    (prest : List (String × String))
    (hid1 : ',' ∉ id.toList) (hid2 : '>' ∉ id.toList) :
    (ms.find? (fun r => lookupKV r "id" == some id) = none →
      parse { content := some ("<@!" ++ id ++ ">"), attachments := none,
              mentions := some ms, rest := prest } =
        some ([[("type", "at")]], "<at,>",
          { content := some ("<@!" ++ id ++ ">"), attachments := none,
            mentions := none, rest := prest })) ∧
    (∀ u, ms.find? (fun r => lookupKV r "id" == some id) = some u →
      (∀ kv ∈ u, '=' ∉ kv.1.toList ∧ lowerStr kv.1 = kv.1 ∧
        trimQuote kv.2 = kv.2 ∧ kv.1 ≠ "type") →
      (u.map Prod.fst).Nodup →
      parse { content := some ("<@!" ++ id ++ ">"), attachments := none,
              mentions := some ms, rest := prest } =
        some ([("type", "at") :: u],
          "<at," ++ interJoinS "," (u.map (fun kv => kv.1 ++ "=" ++ kv.2)) ++ ">",
          { content := some ("<@!" ++ id ++ ">"), attachments := none,
            mentions := none, rest := prest })) := by
  have h0 : ("@!" ++ id).toList = '@' :: '!' :: id.toList := by
    rw [toList_app]; rfl
  have hcg : noCG ("@!" ++ id) := by
    refine ⟨?_, ?_⟩
    · intro hm
      rw [h0] at hm
      simp only [List.mem_cons] at hm
      rcases hm with h | h | h
      · exact absurd h (by decide)
      · exact absurd h (by decide)
      · exact hid1 h
    · intro hm
      rw [h0] at hm
      simp only [List.mem_cons] at hm
      rcases hm with h | h | h
      · exact absurd h (by decide)
      · exact absurd h (by decide)
      · exact hid2 h
  have hne : ("@!" ++ id) ≠ "" := by
    intro he
    have := congrArg String.toList he
    rw [h0] at this
    exact List.cons_ne_nil _ _ this
  have hwt : wfTag ⟨"@!" ++ id, []⟩ := ⟨hcg, by simp, Or.inl hne⟩
  have hrender : renderTags [⟨"@!" ++ id, []⟩] = "<@!" ++ id ++ ">" := by
    rw [renderTags, renderTags, renderTag, innerStrOf]
    simp only [List.isEmpty_nil, if_true, strAppend_empty]
    apply str_ext
    simp only [toList_app]
    rw [show ("@!" : String).toList = ['@', '!'] from rfl,
      show ("<@!" : String).toList = ['<', '@', '!'] from rfl,
      show ("<" : String).toList = ['<'] from rfl]
    simp
  constructor
  · intro hfind
    have hcl : classify (some ms) ("@!" ++ id) [] = some ("at", []) := by
      rw [classify_mention ms id [], hfind]
      rfl
    have h := parse_renderTags [⟨"@!" ++ id, []⟩] (some ms) prest
      (fun _ => ("at", [])) (by simpa using hwt) (by simpa using hcl)
    rw [hrender] at h
    exact h
  · intro u hfind hrec hnd
    have hcl : classify (some ms) ("@!" ++ id) []
        = some ("at", u.map (fun kv => kv.1 ++ "=" ++ kv.2)) := by
      rw [classify_mention ms id [], hfind]
      rfl
    have h := parse_renderTags [⟨"@!" ++ id, []⟩] (some ms) prest
      (fun _ => ("at", u.map (fun kv => kv.1 ++ "=" ++ kv.2)))
      (by simpa using hwt) (by simpa using hcl)
    rw [hrender] at h
    have hbs : buildSeg "at" (u.map (fun kv => kv.1 ++ "=" ++ kv.2))
        = ("type", "at") :: u := by
      apply buildSeg_record
      · intro kv hkv
        have h4 := hrec kv hkv
        exact parseAttr_pair kv.1 kv.2 h4.1 h4.2.1 h4.2.2.1
      · intro kv hkv
        exact (hrec kv hkv).2.2.2
      · exact hnd
    have hb : briefsOf (fun _ => (("at" : String),
          u.map (fun kv => kv.1 ++ "=" ++ kv.2))) [⟨"@!" ++ id, []⟩]
        = "<at," ++ interJoinS "," (u.map (fun kv => kv.1 ++ "=" ++ kv.2)) ++ ">" := by
      rw [briefsOf, briefsOf, briefTag, strAppend_empty]
      apply str_ext
      simp only [toList_app, List.append_assoc]
      rfl
    rw [hb] at h
    dsimp only [List.map_cons, List.map_nil] at h
    rw [hbs] at h
    exact h

/-- Witness for C7: the claim's example mention list, in both the
unresolved and the resolved case. -/
theorem parse_mention_tag_witness :
    parse { content := some ("<@!" ++ "9" ++ ">"), attachments := none,
            mentions := some [[("id", "123"), ("username", "ann")]], rest := [] } =
      some ([[("type", "at")]], "<at,>",
        { content := some ("<@!" ++ "9" ++ ">"), attachments := none,
          mentions := none, rest := [] }) ∧
    parse { content := some ("<@!" ++ "123" ++ ">"), attachments := none,
            mentions := some [[("id", "123"), ("username", "ann")]], rest := [] } =
      some ([[("type", "at"), ("id", "123"), ("username", "ann")]],
        "<at," ++ interJoinS ","
          ([(("id" : String), ("123" : String)), ("username", "ann")].map
            (fun kv => kv.1 ++ "=" ++ kv.2)) ++ ">",
        { content := some ("<@!" ++ "123" ++ ">"), attachments := none,
          mentions := none, rest := [] }) := by
  constructor
  · exact (parse_mention_tag "9" [[("id", "123"), ("username", "ann")]] []
      (by decide) (by decide)).1 (by decide)
  · exact (parse_mention_tag "123" [[("id", "123"), ("username", "ann")]] []
      (by decide) (by decide)).2 [("id", "123"), ("username", "ann")]
      (by decide) (by decide) (by decide)

/-- Witness for C10: a concrete attachment whose brief keeps the plain `src`
while the segment holds the prefixed one, and a zero-attribute tag. -/
theorem brief_diverges_from_segment_witness :
    parse { content := some "", attachments := some [⟨"image/png", "cdn.x/a.png", "cdn.x/a.png", []⟩],
            mentions := none, rest := [] } =
      some ([[("type", attachCat ⟨"image/png", "cdn.x/a.png", "cdn.x/a.png", []⟩),
              ("src", "https://" ++ "cdn.x/a.png"), ("url", "https://" ++ "cdn.x/a.png")]],
        "<" ++ attachCat ⟨"image/png", "cdn.x/a.png", "cdn.x/a.png", []⟩ ++ ","
          ++ ("src" ++ "=" ++ "cdn.x/a.png") ++ "," ++ ("url" ++ "=" ++ "cdn.x/a.png") ++ ">",
        { content := some "", attachments := none, mentions := none, rest := [] }) ∧
    noCG "foo" ∧
    parse { content := some ("<" ++ "foo" ++ ">"), attachments := none,
            mentions := none, rest := [] } =
      some ([[("type", "foo")]], "<" ++ "foo" ++ ",>",
        { content := some ("<" ++ "foo" ++ ">"), attachments := none,
          mentions := none, rest := [] }) := by
  refine ⟨brief_diverges_from_segment.1 "image/png" "cdn.x/a.png" "cdn.x/a.png" none [],
    ⟨by decide, by decide⟩, ?_⟩
  exact brief_diverges_from_segment.2 "foo" none [] ⟨by decide, by decide⟩ (by decide)
    (by decide) (by decide) (by decide)

/-- Witness for C9: a payload carrying both attachments and mentions. -/
theorem parse_consumes_payload_witness :
    ({ content := some "hi", attachments := none, mentions := none,
       rest := [("x", "y")] } : Payload).attachments = none ∧
    ({ content := some "hi", attachments := none, mentions := none,
       rest := [("x", "y")] } : Payload).mentions = none ∧
    ({ content := some "hi", attachments := none, mentions := none,
       rest := [("x", "y")] } : Payload).content = some "hi" ∧
    ({ content := some "hi", attachments := none, mentions := none,
       rest := [("x", "y")] } : Payload).rest = [("x", "y")] := by
  have h := parse_consumes_payload
    { content := some "hi",
      attachments := some [{ content_type := "image/png", src := "a", url := "a",
                             extra := [] }],
      mentions := some [[("id", "7")]], rest := [("x", "y")] }
    [[("type", "text"), ("text", "hi")],
     [("type", "image"), ("src", "https://a"), ("url", "https://a")]]
    "hi<image,src=a,url=a>"
    { content := some "hi", attachments := none, mentions := none,
      rest := [("x", "y")] }
    (by rfl)
  exact h

/-! ## Normalization lemmas for the brief-idempotence claim -/

theorem classify_good (m : Option (List Mention)) (t : GTag) (hg : goodTag t) :
    classify m t.ty t.toks = some (cf t) := by
  obtain ⟨_, _, hbang, hev⟩ := hg
  rw [classify.eq_def, cf]
  by_cases h1 : strPre "faceType" t.ty
  · simp [h1]
  · by_cases h2 : strPre "@" t.ty
    · simp [h1, h2, hbang, hev]
    · by_cases h3 : isShorthand t.ty
      · simp [h1, h2, h3]
      · simp [h1, h2, h3]

theorem replaceFirstL_nomem (tgt rep : List Char) (c : Char) (hrep : c ∉ rep) :
    ∀ l : List Char, c ∉ l → c ∉ replaceFirstL tgt rep l := by
  intro l
  induction l with
  | nil =>
    intro _ hc
    rw [replaceFirstL] at hc
    exact absurd hc (List.not_mem_nil c)
  | cons x xs ih =>
    intro h hc
    rw [replaceFirstL] at hc
    by_cases hb : listPre tgt (x :: xs) = true
    · rw [if_pos hb] at hc
      rcases List.mem_append.mp hc with hc | hc
      · exact hrep hc
      · exact h (List.drop_subset _ _ hc)
    · rw [if_neg hb] at hc
      rcases List.mem_cons.mp hc with hc | hc
      · exact h (hc ▸ List.mem_cons_self x xs)
      · exact ih (fun hm => h (List.mem_cons_of_mem _ hm)) hc

theorem replaceFirst_noCG (tok : String) (h : noCG tok) :
    noCG (replaceFirst "faceId" "id" tok) := by
  constructor
  · exact fun hc => replaceFirstL_nomem _ _ ',' (by decide) tok.toList h.1 hc
  · exact fun hc => replaceFirstL_nomem _ _ '>' (by decide) tok.toList h.2 hc

theorem isShorthand_digits (ty : String) (h : isShorthand ty = true) :
    ∀ c ∈ (splitListOn ':' ty.toList).getD 1 [], '0' ≤ c ∧ c ≤ '9' := by
  rw [isShorthand] at h
  cases hsp : splitListOn ':' ty.toList with
  | nil => rw [hsp] at h; simp at h
  | cons a as =>
    cases as with
    | nil => rw [hsp] at h; simp at h
    | cons b bs =>
      cases bs with
      | nil =>
        rw [hsp] at h
        simp only [Bool.and_eq_true, List.all_eq_true] at h
        intro c hc
        simp only [List.getD_cons_succ, List.getD_cons_zero] at hc
        have := h.2 c hc
        simpa using this
      | cons d ds => rw [hsp] at h; simp at h

theorem cf_fix (t : GTag) (hg : goodTag t) :
    goodTag (normTag t) ∧ cf (normTag t) = cf t := by
  obtain ⟨⟨hty, htoks, _⟩, hnetoks, hbang, hev⟩ := hg
  have hface : ∀ toks2 : List String, toks2 ≠ [] → (∀ tok ∈ toks2, noCG tok) →
      goodTag ⟨"face", toks2⟩ ∧ cf ⟨"face", toks2⟩ = ("face", toks2) := by
    intro toks2 hne2 hcg2
    constructor
    · exact ⟨⟨⟨by dsimp only; decide, by dsimp only; decide⟩, hcg2,
        Or.inl (by dsimp only; decide)⟩, hne2,
        by dsimp only; decide, by dsimp only; decide⟩
    · rw [cf]
      rw [show strPre "faceType" ("face" : String) = false from rfl]
      rw [show strPre "@" ("face" : String) = false from rfl]
      rw [show isShorthand ("face" : String) = false from rfl]
      simp
  by_cases h1 : strPre "faceType" t.ty
  · have hcf : cf t = ("face", t.toks.map (fun attr => replaceFirst "faceId" "id" attr)) := by
      rw [cf]; simp [h1]
    rw [normTag, hcf]
    have hmap : t.toks.map (fun attr => replaceFirst "faceId" "id" attr) ≠ [] := by
      simp [hnetoks]
    have hmc : ∀ tok ∈ t.toks.map (fun attr => replaceFirst "faceId" "id" attr), noCG tok := by
      intro tok htok
      rcases List.mem_map.mp htok with ⟨s, hs, rfl⟩
      exact replaceFirst_noCG s (htoks s hs)
    exact hface _ hmap hmc
  · by_cases h2 : strPre "@" t.ty
    · have hcf : cf t = (t.ty, t.toks) := by
        rw [cf]; simp [h1, h2]
      have hnt : normTag t = t := by
        rw [normTag, hcf]
      rw [hnt]
      exact ⟨⟨⟨hty, htoks, Or.inr hnetoks⟩, hnetoks, hbang, hev⟩, rfl⟩
    · by_cases h3 : isShorthand t.ty
      · have hcf : cf t
            = ("face", ["id=" ++ String.mk ((splitListOn ':' t.ty.toList).getD 1 [])]) := by
          rw [cf]; simp [h1, h2, h3]
        rw [normTag, hcf]
        have hdig := isShorthand_digits t.ty h3
        have htokcg : noCG ("id=" ++ String.mk ((splitListOn ':' t.ty.toList).getD 1 [])) := by
          constructor
          · intro hm
            rw [toList_app] at hm
            rcases List.mem_append.mp hm with hm | hm
            · exact absurd hm (by decide)
            · have := hdig ',' hm
              exact absurd this (by decide)
          · intro hm
            rw [toList_app] at hm
            rcases List.mem_append.mp hm with hm | hm
            · exact absurd hm (by decide)
            · have := hdig '>' hm
              exact absurd this (by decide)
        refine hface _ (by simp) ?_
        intro tok htok
        rw [List.mem_singleton.mp htok]
        exact htokcg
      · have hcf : cf t = (t.ty, t.toks) := by
          rw [cf]; simp [h1, h2, h3]
        have hnt : normTag t = t := by
          rw [normTag, hcf]
        rw [hnt]
        exact ⟨⟨⟨hty, htoks, Or.inr hnetoks⟩, hnetoks, hbang, hev⟩, rfl⟩

theorem briefsOf_renderTags (ts : List GTag)
    (h : ∀ t ∈ ts, (cf t).2 ≠ []) :
    briefsOf (fun t => cf t) ts = renderTags (ts.map normTag) := by
  induction ts with
  | nil => rfl
  | cons t rest ih =>
    rw [briefsOf, List.map_cons, renderTags]
    rw [ih (fun u hu => h u (List.mem_cons_of_mem _ hu))]
    congr 1
    have hne : (cf t).2 ≠ [] := h t (List.mem_cons_self _ _)
    have hie : ((cf t).2).isEmpty = false := by
      cases hx : (cf t).2 with
      | nil => exact absurd hx hne
      | cons a as => rfl
    rw [briefTag, renderTag, innerStrOf]
    rw [show (normTag t).toks = (cf t).2 from rfl,
      show (normTag t).ty = (cf t).1 from rfl]
    rw [hie]
    simp only [Bool.false_eq_true, if_false]
    apply str_ext
    simp only [toList_app, List.append_assoc]

/-- Claim C5 (amended): for content consisting only of bracket tags, each
with at least one attribute token, with already-lowercase keys and values
needing no quoting, and none of which is a mention reference (`@!...` or
`@everyone`), re-parsing the produced brief yields the same structured
segments as parsing the original content. -/
theorem brief_reparse (ts : List GTag) (m : Option (List Mention))
    (prest : List (String × String))
    (hg : ∀ t ∈ ts, goodTag t)
    (_hl : ∀ t ∈ ts, ∀ tok ∈ t.toks, lowerStr (keyOfTok tok) = keyOfTok tok)
    (_hq : ∀ t ∈ ts, ∀ tok ∈ t.toks, trimQuote (valOfTok tok) = valOfTok tok) :
    ∃ segs brief p2 brief2 p3,
      parse { content := some (renderTags ts), attachments := none,
              mentions := m, rest := prest } = some (segs, brief, p2) ∧
      parse { content := some brief, attachments := none, mentions := m,
              rest := prest } = some (segs, brief2, p3) := by
  have h1 := parse_renderTags ts m prest (fun t => cf t)
    (fun t ht => (hg t ht).1) (fun t ht => classify_good m t (hg t ht))
  have hb := briefsOf_renderTags ts (fun t ht => ((cf_fix t (hg t ht)).1).2.1)
  have h2 := parse_renderTags (ts.map normTag) m prest (fun t => cf t)
    (fun t ht => by
      rcases List.mem_map.mp ht with ⟨s, hs, rfl⟩
      exact ((cf_fix s (hg s hs)).1).1)
    (fun t ht => by
      rcases List.mem_map.mp ht with ⟨s, hs, rfl⟩
      exact classify_good m (normTag s) (cf_fix s (hg s hs)).1)
  have hsegs : (ts.map normTag).map (fun t => buildSeg (cf t).1 (cf t).2)
      = ts.map (fun t => buildSeg (cf t).1 (cf t).2) := by
    rw [List.map_map]
    apply List.map_congr_left
    intro s hs
    dsimp only [Function.comp]
    rw [(cf_fix s (hg s hs)).2]
  rw [hsegs] at h2
  refine ⟨ts.map (fun t => buildSeg (cf t).1 (cf t).2), briefsOf (fun t => cf t) ts,
    { content := some (renderTags ts), attachments := none, mentions := none,
      rest := prest },
    briefsOf (fun t => cf t) (ts.map normTag),
    { content := some (renderTags (ts.map normTag)), attachments := none,
      mentions := none, rest := prest },
    h1, ?_⟩
  rw [hb]
  exact h2

/-- Counterexample to C5 as stated: the zero-attribute tag `<foo>` is
content consisting only of bracket tags with lowercase keys and no quoting,
its brief is `<foo,>`, and re-parsing that brief yields a segment with an
extra empty-named attribute. -/
theorem brief_reparse_cex :
    parse { content := some "<foo>", attachments := none, mentions := none,
            rest := [] } =
      some ([[("type", "foo")]], "<foo,>",
        { content := some "<foo>", attachments := none, mentions := none,
          rest := [] }) ∧
    parse { content := some "<foo,>", attachments := none, mentions := none,
            rest := [] } =
      some ([[("type", "foo"), ("", "")]], "<foo,>",
        { content := some "<foo,>", attachments := none, mentions := none,
          rest := [] }) ∧
    ([[("type", "foo")]] : List Seg) ≠ [[("type", "foo"), ("", "")]] :=
  ⟨rfl, rfl, by decide⟩

/-- Witness for the amended C5: the single tag `<foo,x=1>`. -/
theorem brief_reparse_witness :
    ∃ segs brief p2 brief2 p3,
      parse { content := some (renderTags [⟨"foo", ["x=1"]⟩]), attachments := none,
              mentions := none, rest := [] } = some (segs, brief, p2) ∧
      parse { content := some brief, attachments := none, mentions := none,
              rest := [] } = some (segs, brief2, p3) := by
  apply brief_reparse
  · intro t ht
    rw [List.mem_singleton.mp ht]
    refine ⟨⟨⟨by decide, by decide⟩, ?_, Or.inl (by decide)⟩, by decide,
      by decide, by decide⟩
    intro tok htok
    rw [List.mem_singleton.mp htok]
    exact ⟨by decide, by decide⟩
  · intro t ht tok htok
    rw [List.mem_singleton.mp ht] at htok
    rw [List.mem_singleton.mp htok]
    decide
  · intro t ht tok htok
    rw [List.mem_singleton.mp ht] at htok
    rw [List.mem_singleton.mp htok]
    decide

end GroupBot
